import Mathlib

/-!
Verification of the sales-analysis pipeline (`scripts/main_analysis.py`).

The development shallowly embeds the data-transformation and segmentation
logic of the program: the four-table left join (`merge_data`), the
cleaning/enrichment derivations (`IncomeSegment` binning, `Profit` /
`ProfitMargin`), the RFM segmentation engine (snapshot date, recency,
quintile scoring via `pd.qcut` with and without `rank(method='first')`,
and the segment decision table `assign_segment`), and the ABC-XYZ product
segmentation (cumulative revenue banding `abc_category`, the XYZ
fallback).  Machine floats appearing only through pandas null/`inf`
semantics are embedded as an explicit extended-value type; all other
numeric data is embedded as `ℚ` or `ℤ`.
-/

namespace SalesAnalysis

/-! ## RFM segment decision table (`assign_segment`, lines 470-488) -/

/-- Embedding of `assign_segment(row)`: the nested conditionals of the
source, applied to the three quintile scores `r`, `f`, `m`. -/
def assign_segment (r f m : ℕ) : String :=
  if 4 ≤ r ∧ 4 ≤ f ∧ 4 ≤ m then "Champions"
  else if 3 ≤ r ∧ 3 ≤ f ∧ 3 ≤ m then "Loyal Customers"
  else if 4 ≤ r ∧ f ≤ 2 ∧ m ≤ 2 then "New Customers"
  else if 3 ≤ r ∧ f ≤ 2 ∧ m ≤ 2 then "Promising"
  else if r ≤ 2 ∧ 3 ≤ f ∧ 3 ≤ m then "Need Attention"
  else if r ≤ 2 ∧ f ≤ 2 ∧ m ≤ 2 then "Hibernating"
  else "Regular"

/-- First-match evaluation of an ordered (predicate, label) rule list,
with default label for no match: the spec's model of the decision table. -/
def evalRules : List ((ℕ × ℕ × ℕ → Bool) × String) → (ℕ × ℕ × ℕ) → String
  | [], _ => "Regular"
  | (p, lab) :: rest, x => if p x then lab else evalRules rest x

/-- The spec's priority-ordered decision table over (R, F, M) triples. -/
def rfmRules : List ((ℕ × ℕ × ℕ → Bool) × String) :=
  [(fun x => decide (4 ≤ x.1 ∧ 4 ≤ x.2.1 ∧ 4 ≤ x.2.2), "Champions"),
   (fun x => decide (3 ≤ x.1 ∧ 3 ≤ x.2.1 ∧ 3 ≤ x.2.2), "Loyal Customers"),
   (fun x => decide (4 ≤ x.1 ∧ x.2.1 ≤ 2 ∧ x.2.2 ≤ 2), "New Customers"),
   (fun x => decide (3 ≤ x.1 ∧ x.2.1 ≤ 2 ∧ x.2.2 ≤ 2), "Promising"),
   (fun x => decide (x.1 ≤ 2 ∧ 3 ≤ x.2.1 ∧ 3 ≤ x.2.2), "Need Attention"),
   (fun x => decide (x.1 ≤ 2 ∧ x.2.1 ≤ 2 ∧ x.2.2 ≤ 2), "Hibernating")]

/-! ## ABC analysis (`perform_abc_xyz_analysis`, lines 514-572) -/

/-- Embedding of `abc_category(x)` applied to a cumulative revenue
percentage. -/
def abc_category (x : ℚ) : String :=
  if x ≤ 80 then "A" else if x ≤ 95 then "B" else "C"

/-- Descending sort by revenue (`sort_values('SalesAmount', ascending=False)`). -/
def sortDesc (revs : List ℚ) : List ℚ :=
  List.insertionSort (fun a b => b ≤ a) revs

/-- Running cumulative sums (`cumsum()`), with accumulator `acc`. -/
def cumsum (acc : ℚ) : List ℚ → List ℚ
  | [] => []
  | x :: t => (acc + x) :: cumsum (acc + x) t

/-- The `CumulativePercentage` column: cumulative sums over the
revenue-descending sequence, divided by the total, times 100. -/
def cumulativePercentages (revs : List ℚ) : List ℚ :=
  let s := sortDesc revs
  (cumsum 0 s).map (fun c => c / s.sum * 100)

/-- The `ABC_Category` column of `product_sales`. -/
def abcCategories (revs : List ℚ) : List String :=
  (cumulativePercentages revs).map abc_category

/-! ## Income segment binning (`clean_data`, lines 146-149)

`pd.cut(df['YearlyIncome'], bins=[0, 50000, 80000, 100000, inf],
labels=['Low', 'Medium', 'High', 'Very High'])` uses right-closed,
left-open intervals and leaves values outside every bin as nulls
(`none`). -/

/-- Embedding of the `IncomeSegment` derivation. -/
def incomeSegment (x : ℚ) : Option String :=
  if 0 < x ∧ x ≤ 50000 then some ("Low")
  else if 50000 < x ∧ x ≤ 80000 then some ("Medium")
  else if 80000 < x ∧ x ≤ 100000 then some ("High")
  else if 100000 < x then some ("Very High")
  else none

/-! ## Profit margin (`clean_data`, lines 156-158)

`df['ProfitMargin'] = (df['Profit'] / df['SalesAmount']) * 100` is pandas
(numpy) float arithmetic: division by zero produces `nan` for `0/0` and
signed infinities otherwise, never an exception.  `PFloat` embeds the
float values reachable here: finite numbers, `nan` and the two
infinities. -/

inductive PFloat where
  | num : ℚ → PFloat
  | nan : PFloat
  | inf : PFloat
  | ninf : PFloat
deriving DecidableEq

/-- Numpy subtraction on embedded floats. -/
def PFloat.sub : PFloat → PFloat → PFloat
  | .num a, .num b => .num (a - b)
  | .nan, _ => .nan
  | _, .nan => .nan
  | .inf, .inf => .nan
  | .inf, _ => .inf
  | .ninf, .ninf => .nan
  | .ninf, _ => .ninf
  | .num _, .inf => .ninf
  | .num _, .ninf => .inf

/-- Numpy division on embedded floats: `0/0 = nan`, `x/0 = ±inf` for
nonzero finite `x` (with `warnings.filterwarnings('ignore')` in force no
error is raised). -/
def PFloat.div : PFloat → PFloat → PFloat
  | .num a, .num b =>
      if b = 0 then
        if a = 0 then .nan else if 0 < a then .inf else .ninf
      else .num (a / b)
  | .nan, _ => .nan
  | _, .nan => .nan
  | .inf, .inf => .nan
  | .inf, .ninf => .nan
  | .ninf, .inf => .nan
  | .ninf, .ninf => .nan
  | .inf, .num b => if 0 ≤ b then .inf else .ninf
  | .ninf, .num b => if 0 ≤ b then .ninf else .inf
  | .num _, .inf => .num 0
  | .num _, .ninf => .num 0

/-- Numpy multiplication on embedded floats (only the sign cases
reachable from `* 100` matter downstream). -/
def PFloat.mul : PFloat → PFloat → PFloat
  | .num a, .num b => .num (a * b)
  | .nan, _ => .nan
  | _, .nan => .nan
  | .inf, .inf => .inf
  | .inf, .ninf => .ninf
  | .ninf, .inf => .ninf
  | .ninf, .ninf => .inf
  | .inf, .num b => if b = 0 then .nan else if 0 < b then .inf else .ninf
  | .num a, .inf => if a = 0 then .nan else if 0 < a then .inf else .ninf
  | .ninf, .num b => if b = 0 then .nan else if 0 < b then .ninf else .inf
  | .num a, .ninf => if a = 0 then .nan else if 0 < a then .ninf else .inf

/-- Embedding of `pd.isnull` on a float value: only `nan` is a missing
value; infinities are not. -/
def PFloat.isNull : PFloat → Bool
  | .nan => true
  | _ => false

/-- Embedding of the `Profit` column: `SalesAmount - TotalProductCost`. -/
def profitCol (sales cost : PFloat) : PFloat := sales.sub cost

/-- Embedding of the `ProfitMargin` column:
`(Profit / SalesAmount) * 100`. -/
def profitMargin (sales cost : PFloat) : PFloat :=
  ((profitCol sales cost).div sales).mul (.num 100)

/-! ## Recency (`perform_rfm_analysis`, lines 448-456)

Rows are (CustomerKey, OrderDate) pairs with dates as integer day
numbers; `snapshot_date = df['OrderDate'].max() + 1 day` and
`Recency = (snapshot_date - x.max()).days` per customer group. -/

/-- Column maximum (`Series.max()`), `none` on an empty column. -/
def listMax : List ℤ → Option ℤ
  | [] => none
  | a :: t => some (t.foldl max a)

/-- The per-customer `Recency` value: defined exactly when the customer
has at least one row (`groupby` only produces nonempty groups). -/
def rfmRecency (df : List (ℤ × ℤ)) (c : ℤ) : Option ℤ :=
  match listMax (df.map Prod.snd) with
  | none => none
  | some m =>
      (listMax ((df.filter (fun row => row.1 == c)).map Prod.snd)).map
        (fun mc => (m + 1) - mc)

end SalesAnalysis

namespace SalesAnalysis

/-! ## Helper lemmas -/

theorem listMax_le_of_mem {l : List ℤ} {m x : ℤ} (hm : listMax l = some m)
    (hx : x ∈ l) : x ≤ m := by
  match l with
  | [] => cases hx
  | a :: t =>
    simp only [listMax, Option.some.injEq] at hm
    subst hm
    have key : ∀ (t : List ℤ) (a : ℤ), a ≤ t.foldl max a := by
      intro t
      induction t with
      | nil => intro a; exact le_refl a
      | cons b t ih =>
        intro a
        calc a ≤ max a b := le_max_left a b
        _ ≤ (t.foldl max (max a b)) := ih (max a b)
    rcases List.mem_cons.1 hx with h | h
    · subst h; exact key t x
    · clear hx
      induction t generalizing a with
      | nil => cases h
      | cons b t ih =>
        rcases List.mem_cons.1 h with h2 | h2
        · subst h2
          calc x ≤ max a x := le_max_right a x
          _ ≤ t.foldl max (max a x) := key t (max a x)
        · exact ih (max a b) h2

theorem listMax_mem {l : List ℤ} {m : ℤ} (hm : listMax l = some m) : m ∈ l := by
  match l with
  | [] => simp [listMax] at hm
  | a :: t =>
    simp only [listMax, Option.some.injEq] at hm
    subst hm
    have key : ∀ (t : List ℤ) (a : ℤ), t.foldl max a = a ∨ t.foldl max a ∈ t := by
      intro t
      induction t with
      | nil => intro a; exact Or.inl rfl
      | cons b t ih =>
        intro a
        have hstep : (b :: t).foldl max a = t.foldl max (max a b) := rfl
        rcases ih (max a b) with h | h
        · rcases max_choice a b with h2 | h2
          · exact Or.inl (by rw [hstep, h, h2])
          · refine Or.inr ?_
            rw [hstep, h, h2]
            exact List.mem_cons_self b t
        · refine Or.inr ?_
          rw [hstep]
          exact List.mem_cons_of_mem b h
    rcases key t a with h | h
    · rw [h]; exact List.mem_cons_self a t
    · exact List.mem_cons_of_mem a h

/-! ## C1: the segment label equals the decision table, first match wins -/

/-- C1.  For every score triple, `assign_segment` returns exactly the
first-match evaluation of the fixed priority-ordered decision table
(Champions, Loyal Customers, New Customers, Promising, Need Attention,
Hibernating, default Regular). -/
theorem assign_segment_eq_decision_table (r f m : ℕ) :
    assign_segment r f m = evalRules rfmRules (r, f, m) := by
  simp only [assign_segment, evalRules, rfmRules, decide_eq_true_eq]

/-! ## C2: ABC category boundaries over the cumulative percentage -/

/-- C2.  Along the revenue-descending sequence the ABC category of each
product is determined by its running cumulative percentage: `A` when it
is at most 80, `B` when it is more than 80 but at most 95, `C` when it
is more than 95; exactly 80 gives `A`, 80.01 gives `B`; and revenues
{600, 300, 100} are categorized {A, B, C}. -/
theorem abc_category_boundaries :
    (∀ revs : List ℚ, abcCategories revs =
      (cumulativePercentages revs).map abc_category) ∧
    (∀ x : ℚ, (x ≤ 80 → abc_category x = "A") ∧
      (80 < x → x ≤ 95 → abc_category x = "B") ∧
      (95 < x → abc_category x = "C")) ∧
    abc_category 80 = "A" ∧
    abc_category (8001 / 100) = "B" ∧
    abcCategories [600, 300, 100] = ["A", "B", "C"] := by
  refine ⟨fun revs => rfl, fun x => ⟨?_, ?_, ?_⟩, ?_, ?_, ?_⟩
  · intro h; simp [abc_category, h]
  · intro h1 h2; simp [abc_category, not_le.2 h1, h2]
  · intro h
    have h1 : ¬ x ≤ 80 := by linarith
    have h2 : ¬ x ≤ 95 := by linarith
    simp [abc_category, h1, h2]
  · norm_num [abc_category]
  · norm_num [abc_category]
  · norm_num [abcCategories, cumulativePercentages, sortDesc, cumsum,
      List.insertionSort, List.orderedInsert, abc_category]

/-- Witness for C2: the three characterization branches at concrete
cumulative percentages 60, 90 and 100. -/
theorem abc_category_boundaries_witness :
    abc_category 60 = "A" ∧ abc_category 90 = "B" ∧ abc_category 100 = "C" :=
  ⟨(abc_category_boundaries.2.1 60).1 (by norm_num),
   (abc_category_boundaries.2.1 90).2.1 (by norm_num) (by norm_num),
   (abc_category_boundaries.2.1 100).2.2 (by norm_num)⟩

/-! ## C10: income segment interval boundaries -/

/-- C10.  `IncomeSegment` uses left-open right-closed bins over
breakpoints (0, 50000, 80000, 100000, inf): incomes at most 0 (zero or
negative) get a null segment, and 50000, 80000, 100000 map to the lower
band (Low, Medium, High). -/
theorem income_segment_boundaries :
    incomeSegment 0 = none ∧
    (∀ x : ℚ, x ≤ 0 → incomeSegment x = none) ∧
    incomeSegment 50000 = some ("Low") ∧
    incomeSegment 80000 = some ("Medium") ∧
    incomeSegment 100000 = some ("High") := by
  refine ⟨by norm_num [incomeSegment], ?_, by norm_num [incomeSegment],
    by norm_num [incomeSegment], by norm_num [incomeSegment]⟩
  intro x hx
  have h1 : ¬ (0 < x ∧ x ≤ 50000) := by rintro ⟨h, -⟩; linarith
  have h2 : ¬ (50000 < x ∧ x ≤ 80000) := by rintro ⟨h, -⟩; linarith
  have h3 : ¬ (80000 < x ∧ x ≤ 100000) := by rintro ⟨h, -⟩; linarith
  have h4 : ¬ (100000 < x) := by intro h; linarith
  simp [incomeSegment, h1, h2, h3, h4]

/-- Witness for C10: a negative income also yields a null segment. -/
theorem income_segment_boundaries_witness : incomeSegment (-5) = none :=
  income_segment_boundaries.2.1 (-5) (by norm_num)

/-! ## C7: recency is at least one -/

/-- C7.  Whenever a customer's recency is defined (the customer occurs in
the data), it equals snapshot date minus the customer's latest order
date with snapshot = global maximum order date + 1, hence is at least 1
(so in particular nonnegative). -/
theorem recency_ge_one (df : List (ℤ × ℤ)) (c : ℤ) (v : ℤ)
    (h : rfmRecency df c = some v) : 1 ≤ v := by
  unfold rfmRecency at h
  cases hg : listMax (df.map Prod.snd) with
  | none => rw [hg] at h; cases h
  | some m =>
    rw [hg] at h
    cases hc : listMax ((df.filter (fun row => row.1 == c)).map Prod.snd) with
    | none => rw [hc] at h; cases h
    | some mc =>
      rw [hc] at h
      simp only [Option.map_some', Option.some.injEq] at h
      subst h
      have hmem : mc ∈ (df.filter (fun row => row.1 == c)).map Prod.snd :=
        listMax_mem hc
      have hmem2 : mc ∈ df.map Prod.snd := by
        rcases List.mem_map.1 hmem with ⟨row, hrow, hsnd⟩
        exact List.mem_map.2 ⟨row, List.mem_of_mem_filter hrow, hsnd⟩
      have hle : mc ≤ m := listMax_le_of_mem hg hmem2
      omega

/-- Witness for C7: a concrete two-customer dataset where customer 1 has
recency 1 + 10 - 7 = 4. -/
theorem recency_ge_one_witness :
    rfmRecency [(1, 5), (2, 10), (1, 7)] 1 = some 4 ∧
    (1 : ℤ) ≤ 4 := by
  constructor
  · rfl
  · exact recency_ge_one [(1, 5), (2, 10), (1, 7)] 1 4 (by rfl)

/-! ## C6: profit margin at zero sales -/

/-- C6 counterexample.  A record with `SalesAmount = 0` and
`TotalProductCost = 1` gets `ProfitMargin = -inf` under pandas float
semantics, which is not a null/missing value (`pd.isnull(-inf)` is
false): the claim that the margin is null for every zero-sales record is
false. -/
theorem profit_margin_zero_sales_not_null :
    profitMargin (.num 0) (.num 1) = .ninf ∧
    (profitMargin (.num 0) (.num 1)).isNull = false := by
  norm_num [profitMargin, profitCol, PFloat.sub, PFloat.div, PFloat.mul,
    PFloat.isNull]

/-- C6 amended.  Computing `ProfitMargin` never raises a division error
(the embedded operation is total); for `SalesAmount = 0` the margin is
null (`nan`) only when `TotalProductCost` is also 0, and otherwise is a
signed infinity (negative for positive cost), which is not a missing
value; for `SalesAmount ≠ 0` the margin equals
`(SalesAmount - TotalProductCost) / SalesAmount * 100`. -/
theorem profit_margin_pandas (a c : ℚ) :
    (a ≠ 0 → profitMargin (.num a) (.num c) = .num ((a - c) / a * 100)) ∧
    (a = 0 → c = 0 → (profitMargin (.num a) (.num c)).isNull = true) ∧
    (a = 0 → 0 < c → profitMargin (.num a) (.num c) = .ninf ∧
      (profitMargin (.num a) (.num c)).isNull = false) ∧
    (a = 0 → c < 0 → profitMargin (.num a) (.num c) = .inf ∧
      (profitMargin (.num a) (.num c)).isNull = false) := by
  refine ⟨?_, ?_, ?_, ?_⟩
  · intro h
    simp [profitMargin, profitCol, PFloat.sub, PFloat.div, PFloat.mul, h]
  · intro ha hc
    subst ha; subst hc
    norm_num [profitMargin, profitCol, PFloat.sub, PFloat.div, PFloat.mul,
      PFloat.isNull]
  · intro ha hc
    subst ha
    have h1 : c ≠ 0 := ne_of_gt hc
    have h2 : ¬ c < 0 := not_lt.2 (le_of_lt hc)
    norm_num [profitMargin, profitCol, PFloat.sub, PFloat.div, PFloat.mul,
      PFloat.isNull, h1, h2]
  · intro ha hc
    subst ha
    have h1 : c ≠ 0 := ne_of_lt hc
    norm_num [profitMargin, profitCol, PFloat.sub, PFloat.div, PFloat.mul,
      PFloat.isNull, h1, hc]

/-- Witness for C6 amended: a normal record (sales 4, cost 1) has margin
75%, and a zero-sales record with positive cost has margin `-inf`. -/
theorem profit_margin_pandas_witness :
    profitMargin (.num 4) (.num 1) = .num ((4 - 1) / 4 * 100) ∧
    profitMargin (.num 0) (.num 2) = .ninf ∧
    (profitMargin (.num 0) (.num 2)).isNull = false :=
  ⟨(profit_margin_pandas 4 1).1 (by norm_num),
   ((profit_margin_pandas 0 2).2.2.1 rfl (by norm_num)).1,
   ((profit_margin_pandas 0 2).2.2.1 rfl (by norm_num)).2⟩

/-! ## C4: XYZ failure degrades to Unknown -/

/-- Embedding of `xyz_category(cv)`. -/
def xyz_category (cv : ℚ) : String :=
  if cv ≤ 3/10 then "X" else if cv ≤ 6/10 then "Y" else "Z"

/-- A row of `product_sales` after the ABC stage: product key, revenue,
cumulative percentage and ABC category. -/
structure AbcRow where
  productKey : ℤ
  salesAmount : ℚ
  cumPct : ℚ
  abc : String
deriving DecidableEq

/-- Embedding of the XYZ stage of `perform_abc_xyz_analysis`: the
`try`/`except` block is modeled by an optional CV table.  When the
pivot/CV computation succeeds (`some cv`) each product gets
`xyz_category` of its CV; when it fails (`none`, the `except` branch)
every product gets `XYZ_Category = "Unknown"` and
`ABC_XYZ = ABC + "-Unknown"`.  In both cases a full result is returned
(the function is total: the analysis does not abort). -/
def applyXyz (rows : List AbcRow) (cv : Option (ℤ → ℚ)) :
    List (AbcRow × String × String) :=
  match cv with
  | some f => rows.map (fun r =>
      (r, xyz_category (f r.productKey),
        r.abc ++ "-" ++ xyz_category (f r.productKey)))
  | none => rows.map (fun r => (r, "Unknown", r.abc ++ "-Unknown"))

/-- C4.  When the pivot/CV computation fails, the analysis still returns
a row for every product, carrying the already-computed ABC data
unchanged, with XYZ category `Unknown` and combined label
`<ABC>-Unknown`. -/
theorem xyz_failure_degrades_to_unknown (rows : List AbcRow) :
    (applyXyz rows none).map Prod.fst = rows ∧
    ∀ x ∈ applyXyz rows none,
      x.2.1 = "Unknown" ∧ x.2.2 = x.1.abc ++ "-Unknown" ∧ x.1 ∈ rows := by
  constructor
  · have h : (Prod.fst ∘ fun r : AbcRow => (r, ("Unknown", r.abc ++ "-Unknown"))) = id := rfl
    simp only [applyXyz, List.map_map, h, List.map_id]
  · intro x hx
    simp only [applyXyz, List.mem_map] at hx
    obtain ⟨r, hr, hx⟩ := hx
    subst hx
    exact ⟨rfl, rfl, hr⟩

/-- Witness for C4: a single product with ABC category A keeps its row
and gets the `A-Unknown` label when the CV computation fails. -/
theorem xyz_failure_degrades_to_unknown_witness :
    (applyXyz [⟨1, 600, 60, "A"⟩] none).map Prod.fst = [⟨1, 600, 60, "A"⟩] ∧
    ((⟨1, 600, 60, "A"⟩ : AbcRow), ("Unknown", "A" ++ "-Unknown")).2.1 = "Unknown" :=
  ⟨(xyz_failure_degrades_to_unknown [⟨1, 600, 60, "A"⟩]).1,
   ((xyz_failure_degrades_to_unknown [⟨1, 600, 60, "A"⟩]).2
     ((⟨1, 600, 60, "A"⟩ : AbcRow), ("Unknown", "A" ++ "-Unknown"))
     (by simp [applyXyz])).1⟩

/-! ## C8: cumulative percentage is monotone along the sort order -/

theorem cumsum_length (acc : ℚ) (l : List ℚ) : (cumsum acc l).length = l.length := by
  induction l generalizing acc with
  | nil => rfl
  | cons x t ih => simp [cumsum, ih]

theorem le_of_mem_cumsum {l : List ℚ} (hl : ∀ x ∈ l, 0 ≤ x) :
    ∀ acc, ∀ y ∈ cumsum acc l, acc ≤ y := by
  induction l with
  | nil => intro acc y hy; cases hy
  | cons x t ih =>
    intro acc y hy
    have hx : 0 ≤ x := hl x (List.mem_cons_self x t)
    rcases List.mem_cons.1 hy with h | h
    · subst h; linarith
    · have := ih (fun z hz => hl z (List.mem_cons_of_mem x hz)) (acc + x) y h
      linarith

theorem cumsum_sorted {l : List ℚ} (hl : ∀ x ∈ l, 0 ≤ x) :
    ∀ acc, List.Sorted (· ≤ ·) (cumsum acc l) := by
  induction l with
  | nil => intro acc; simp [cumsum]
  | cons x t ih =>
    intro acc
    rw [cumsum, List.sorted_cons]
    refine ⟨?_, ih (fun z hz => hl z (List.mem_cons_of_mem x hz)) (acc + x)⟩
    intro b hb
    exact le_of_mem_cumsum (fun z hz => hl z (List.mem_cons_of_mem x hz)) (acc + x) b hb

/-- C8.  For nonnegative product revenues with positive total, the
`CumulativePercentage` column is monotone in the revenue-descending
order: a product that sorts earlier has a cumulative percentage at most
that of any later product. -/
theorem cumulative_percentage_monotone (revs : List ℚ)
    (hpos : ∀ r ∈ revs, 0 ≤ r) (htot : 0 < revs.sum) :
    ∀ i j, i ≤ j → j < (cumulativePercentages revs).length →
      (cumulativePercentages revs).getD i 0 ≤ (cumulativePercentages revs).getD j 0 := by
  intro i j hij hj
  have hi : i < (cumulativePercentages revs).length := lt_of_le_of_lt hij hj
  rw [List.getD_eq_getElem _ _ hi, List.getD_eq_getElem _ _ hj]
  rcases Nat.eq_or_lt_of_le hij with h | h
  · subst h; exact le_refl _
  have hperm : List.Perm (sortDesc revs) revs := List.perm_insertionSort _ revs
  have hs : ∀ x ∈ sortDesc revs, 0 ≤ x := fun x hx => hpos x (hperm.mem_iff.1 hx)
  have hsum : 0 < (sortDesc revs).sum := by rw [hperm.sum_eq]; exact htot
  have hsorted : List.Sorted (· ≤ ·) (cumsum 0 (sortDesc revs)) := cumsum_sorted hs 0
  have hmap : List.Pairwise (· ≤ ·) (cumulativePercentages revs) := by
    unfold cumulativePercentages
    exact List.Pairwise.map _ (fun a b hab => by gcongr) hsorted
  exact List.pairwise_iff_getElem.1 hmap i j _ _ h

/-- Witness for C8: revenues {600, 300, 100}; the first product's
cumulative percentage is at most the third's. -/
theorem cumulative_percentage_monotone_witness :
    (cumulativePercentages [600, 300, 100]).getD 0 0 ≤
      (cumulativePercentages [600, 300, 100]).getD 2 0 :=
  cumulative_percentage_monotone [600, 300, 100]
    (by intro r hr; fin_cases hr <;> norm_num)
    (by norm_num)
    0 2 (by norm_num)
    (by simp only [cumulativePercentages, sortDesc, List.length_map,
      cumsum_length, List.length_insertionSort]; norm_num)

/-! ## C9: the four-table merge is a left join (`merge_data`, lines 59-75) -/

/-- A sales-transaction row: the three foreign keys plus its measure. -/
structure SalesRow where
  customerKey : ℤ
  productKey : ℤ
  territoryKey : ℤ
  salesAmount : ℚ
deriving DecidableEq

/-- A customer dimension row: key plus an (opaque) attribute payload. -/
structure CustomerRow where
  customerKey : ℤ
  attrs : ℤ
deriving DecidableEq

/-- A product dimension row: key plus an (opaque) attribute payload. -/
structure ProductRow where
  productKey : ℤ
  attrs : ℤ
deriving DecidableEq

/-- A territory dimension row: key plus an (opaque) attribute payload. -/
structure TerritoryRow where
  territoryKey : ℤ
  attrs : ℤ
deriving DecidableEq

/-- Embedding of one `DataFrame.merge(..., how='left')` step: every left
row is kept; it is paired with each matching right row, or with `none`
(pandas nulls for that table's attributes) when no right row matches. -/
def leftMerge {α β : Type} (ls : List α) (rs : List β) (mt : α → β → Bool) :
    List (α × Option β) :=
  ls.flatMap (fun s =>
    match rs.filter (fun d => mt s d) with
    | [] => [(s, none)]
    | d :: ds => (d :: ds).map (fun x => (s, some x)))

/-- Embedding of `merge_data`: sales left-joined with customers on
`CustomerKey`, then products on `ProductKey`, then territories on
`SalesTerritoryKey`. -/
def merge_data (sales : List SalesRow) (customers : List CustomerRow)
    (products : List ProductRow) (territories : List TerritoryRow) :
    List (((SalesRow × Option CustomerRow) × Option ProductRow) × Option TerritoryRow) :=
  leftMerge
    (leftMerge
      (leftMerge sales customers (fun s c => c.customerKey == s.customerKey))
      products (fun p pr => pr.productKey == p.1.productKey))
    territories (fun q t => t.territoryKey == q.1.1.territoryKey)

theorem leftMerge_preserves {α β : Type} (ls : List α) (rs : List β)
    (mt : α → β → Bool) : ∀ s ∈ ls, ∃ ob, (s, ob) ∈ leftMerge ls rs mt := by
  intro s hs
  cases hf : rs.filter (fun d => mt s d) with
  | nil =>
    refine ⟨none, List.mem_flatMap.2 ⟨s, hs, ?_⟩⟩
    rw [hf]
    exact List.mem_singleton.2 rfl
  | cons d ds =>
    refine ⟨some d, List.mem_flatMap.2 ⟨s, hs, ?_⟩⟩
    rw [hf]
    exact List.mem_map.2 ⟨d, List.mem_cons_self d ds, rfl⟩

theorem leftMerge_sound {α β : Type} (ls : List α) (rs : List β)
    (mt : α → β → Bool) : ∀ p ∈ leftMerge ls rs mt,
      p.1 ∈ ls ∧
      (∀ b, p.2 = some b → b ∈ rs ∧ mt p.1 b = true) ∧
      (p.2 = none → ∀ b ∈ rs, mt p.1 b = false) := by
  intro p hp
  obtain ⟨s, hs, hmem⟩ := List.mem_flatMap.1 hp
  cases hf : rs.filter (fun d => mt s d) with
  | nil =>
    rw [hf] at hmem
    have hp1 : p = (s, none) := List.mem_singleton.1 hmem
    subst hp1
    refine ⟨hs, ?_, ?_⟩
    · intro b hb; cases hb
    · intro _ b hb
      have := List.filter_eq_nil_iff.1 hf b hb
      simpa using this
  | cons d ds =>
    rw [hf] at hmem
    obtain ⟨x, hx, hpx⟩ := List.mem_map.1 hmem
    subst hpx
    refine ⟨hs, ?_, ?_⟩
    · intro b hb
      have hxb : x = b := by simpa using hb
      subst hxb
      have hxf : x ∈ rs.filter (fun d => mt s d) := by rw [hf]; exact hx
      exact ⟨List.mem_of_mem_filter hxf, by
        have := List.of_mem_filter hxf; simpa using this⟩
    · intro hb; cases hb

/-- C9.  `merge_data` is the left join of sales with the three dimension
tables: every sales row appears in the output; each output row carries a
sales row from the input, and for each dimension either an attribute row
from that table whose key equals the sales row's foreign key, or `none`
exactly when no row of that table matches the foreign key (unmatched
keys give nulls, rows are never dropped). -/
theorem merge_left_join_correct (sales : List SalesRow)
    (customers : List CustomerRow) (products : List ProductRow)
    (territories : List TerritoryRow) :
    (∀ s ∈ sales, ∃ oc op ot,
      (((s, oc), op), ot) ∈ merge_data sales customers products territories) ∧
    (∀ row ∈ merge_data sales customers products territories,
      row.1.1.1 ∈ sales ∧
      (∀ c, row.1.1.2 = some c →
        c ∈ customers ∧ c.customerKey = row.1.1.1.customerKey) ∧
      (row.1.1.2 = none → ∀ c ∈ customers,
        c.customerKey ≠ row.1.1.1.customerKey) ∧
      (∀ p, row.1.2 = some p →
        p ∈ products ∧ p.productKey = row.1.1.1.productKey) ∧
      (row.1.2 = none → ∀ p ∈ products,
        p.productKey ≠ row.1.1.1.productKey) ∧
      (∀ t, row.2 = some t →
        t ∈ territories ∧ t.territoryKey = row.1.1.1.territoryKey) ∧
      (row.2 = none → ∀ t ∈ territories,
        t.territoryKey ≠ row.1.1.1.territoryKey)) := by
  constructor
  · intro s hs
    obtain ⟨oc, h1⟩ := leftMerge_preserves sales customers
      (fun s c => c.customerKey == s.customerKey) s hs
    obtain ⟨op, h2⟩ := leftMerge_preserves _ products
      (fun p pr => pr.productKey == p.1.productKey) (s, oc) h1
    obtain ⟨ot, h3⟩ := leftMerge_preserves _ territories
      (fun q t => t.territoryKey == q.1.1.territoryKey) ((s, oc), op) h2
    exact ⟨oc, op, ot, h3⟩
  · intro row hrow
    obtain ⟨h2mem, hT, hTn⟩ := leftMerge_sound _ territories _ row hrow
    obtain ⟨h1mem, hP, hPn⟩ := leftMerge_sound _ products _ row.1 h2mem
    obtain ⟨h0mem, hC, hCn⟩ := leftMerge_sound sales customers _ row.1.1 h1mem
    refine ⟨h0mem, ?_, ?_, ?_, ?_, ?_, ?_⟩
    · intro c hc
      obtain ⟨hmem, hkey⟩ := hC c hc
      exact ⟨hmem, by simpa using hkey⟩
    · intro hn c hc
      have := hCn hn c hc
      simpa using this
    · intro p hp
      obtain ⟨hmem, hkey⟩ := hP p hp
      exact ⟨hmem, by simpa using hkey⟩
    · intro hn p hp
      have := hPn hn p hp
      simpa using this
    · intro t ht
      obtain ⟨hmem, hkey⟩ := hT t ht
      exact ⟨hmem, by simpa using hkey⟩
    · intro hn t ht
      have := hTn hn t ht
      simpa using this

/-- Witness for C9: one sales row whose customer and territory keys
match and whose product key matches nothing: the row survives with the
matched attributes and a null product. -/
theorem merge_left_join_correct_witness :
    (∃ oc op ot, (((⟨1, 10, 100, 5⟩, oc), op), ot) ∈
      merge_data [⟨1, 10, 100, 5⟩] [⟨1, 77⟩] [] [⟨100, 88⟩]) ∧
    ((⟨1, 10, 100, 5⟩ : SalesRow), some (⟨1, 77⟩ : CustomerRow)) ∈
      leftMerge [(⟨1, 10, 100, 5⟩ : SalesRow)] [(⟨1, 77⟩ : CustomerRow)]
        (fun s c => c.customerKey == s.customerKey) := by
  constructor
  · exact (merge_left_join_correct [⟨1, 10, 100, 5⟩] [⟨1, 77⟩] [] [⟨100, 88⟩]).1
      ⟨1, 10, 100, 5⟩ (List.mem_singleton.2 rfl)
  · obtain ⟨ob, hmem⟩ := leftMerge_preserves [(⟨1, 10, 100, 5⟩ : SalesRow)]
      [(⟨1, 77⟩ : CustomerRow)] (fun s c => c.customerKey == s.customerKey)
      ⟨1, 10, 100, 5⟩ (List.mem_singleton.2 rfl)
    have : ob = some ⟨1, 77⟩ := by
      rcases (leftMerge_sound _ _ _ _ hmem).2.1 with h
      cases ob with
      | none =>
        have hall := (leftMerge_sound _ _ _ _ hmem).2.2 rfl (⟨1, 77⟩ : CustomerRow)
          (List.mem_singleton.2 rfl)
        simp at hall
      | some c =>
        have hc := h c rfl
        have : c ∈ [(⟨1, 77⟩ : CustomerRow)] := hc.1
        rw [List.mem_singleton.1 this]
    rw [this] at hmem
    exact hmem

/-! ## Quintile scoring (`perform_rfm_analysis`, lines 462-464)

`pd.qcut(col, 5, labels=L)` computes the 0, 0.2, 0.4, 0.6, 0.8, 1
quantiles of the column by linear interpolation over the sorted values
(numpy default), raises `ValueError` when the resulting bin edges are
not pairwise distinct (modeled as `none`), and otherwise assigns each
value the label of its bin, where bin 1 is `[e0, e1]` (lowest edge
included) and bin `j > 1` is `(e_{j-1}, e_j]`.

The source computes `R_Score = qcut(Recency, 5, labels=[5,4,3,2,1])` on
the raw values, but `F_Score`/`M_Score` as
`qcut(col.rank(method='first'), 5, labels=[1,2,3,4,5])` with
first-occurrence tie-breaking ranks. -/

/-- Linear-interpolation quantile of a sorted list at fraction `q`
(numpy's default `interpolation='linear'`). -/
def interpQuantile (s : List ℚ) (q : ℚ) : ℚ :=
  let h := q * (s.length - 1)
  let i := (⌊h⌋).toNat
  let lo := s.getD i 0
  let hi := s.getD (i + 1) lo
  lo + (h - i) * (hi - lo)

/-- The six quintile bin edges of a column. -/
def qcutEdges (xs : List ℚ) : List ℚ :=
  [0, 1/5, 2/5, 3/5, 4/5, 1].map
    (interpQuantile (List.insertionSort (· ≤ ·) xs))

/-- Edge-uniqueness check: `pd.qcut` raises unless the (sorted) edges
are pairwise distinct, i.e. strictly increasing. -/
def strictlyIncreasing : List ℚ → Bool
  | [] => true
  | [_] => true
  | a :: b :: t => decide (a < b) && strictlyIncreasing (b :: t)

/-- The 1-based bin of a value: bin 1 up to the second edge (the lowest
edge is included via `include_lowest`), bin `j` up to edge `j`. -/
def qcutBin (edges : List ℚ) (v : ℚ) : ℕ :=
  if v ≤ edges.getD 1 0 then 1
  else if v ≤ edges.getD 2 0 then 2
  else if v ≤ edges.getD 3 0 then 3
  else if v ≤ edges.getD 4 0 then 4
  else 5

/-- Embedding of `pd.qcut(xs, 5, labels)`: `none` models the
`ValueError: Bin edges must be unique` raised on duplicate edges. -/
def qcut5 (xs : List ℚ) (labels : List ℕ) : Option (List ℕ) :=
  let edges := qcutEdges xs
  if strictlyIncreasing edges then
    some (xs.map (fun v => labels.getD (qcutBin edges v - 1) 0))
  else none

/-- The `rank(method='first')` of entry `i`: one plus the number of
entries that are smaller, or equal but occurring earlier. -/
def rankOf (xs : List ℚ) (i : ℕ) : ℕ :=
  1 + ((Finset.range xs.length).filter (fun j =>
    xs.getD j 0 < xs.getD i 0 ∨ (xs.getD j 0 = xs.getD i 0 ∧ j < i))).card

/-- Embedding of `Series.rank(method='first')` as a column. -/
def rankFirst (xs : List ℚ) : List ℕ :=
  (List.range xs.length).map (rankOf xs)

/-- The `R_Score` column: `pd.qcut(rfm['Recency'], 5, labels=[5,4,3,2,1])`
on the raw recency values (no rank tie-breaking). -/
def rScores (recency : List ℚ) : Option (List ℕ) :=
  qcut5 recency [5, 4, 3, 2, 1]

/-- The `F_Score`/`M_Score` column:
`pd.qcut(col.rank(method='first'), 5, labels=[1,2,3,4,5])`. -/
def fScores (xs : List ℚ) : Option (List ℕ) :=
  qcut5 ((rankFirst xs).map (fun (r : ℕ) => (r : ℚ))) [1, 2, 3, 4, 5]

theorem interpQuantile_singleton (r q : ℚ) : interpQuantile [r] q = r := by
  simp [interpQuantile]

theorem qcut5_singleton (r : ℚ) (labels : List ℕ) : qcut5 [r] labels = none := by
  simp [qcut5, qcutEdges, interpQuantile_singleton, strictlyIncreasing]

/-- C5.  With a single customer every quantile bin edge coincides, so
`pd.qcut` raises (`none`): both the recency scoring and the
rank-based frequency/monetary scoring abort the RFM analysis instead of
falling back to a degraded result; there is no try/except around this
code. -/
theorem rfm_quintile_single_customer_crashes (r : ℚ) :
    rScores [r] = none ∧ fScores [r] = none := by
  constructor
  · exact qcut5_singleton r [5, 4, 3, 2, 1]
  · have h : rankFirst [r] = [1] := by
      simp [rankFirst, rankOf, List.range_succ, List.range_zero,
        Finset.range_one, Finset.filter_singleton]
    rw [fScores, h]
    exact qcut5_singleton 1 [1, 2, 3, 4, 5]

/-! ## C3: the counterexample on the recency metric -/

theorem intToNat_two : Int.toNat 2 = 2 := rfl

theorem intToNat_three : Int.toNat 3 = 3 := rfl

theorem intToNat_four : Int.toNat 4 = 4 := rfl

/-- C3 counterexample.  Five distinct customers with recency values
1, 2, 2, 3, 4 (ties are possible since recency is a derived day count):
`R_Score` is computed by `pd.qcut` on the raw values with no rank
tie-breaking, producing scores [5, 4, 4, 2, 1] — score 3 is given to no
customer and score 4 to two — so the recency metric does not partition
the customers into 5 balanced bins (±1), refuting the claim that all
three metrics are binned by tie-broken ranks into balanced quintiles. -/
theorem recency_binning_unbalanced :
    rScores [1, 2, 2, 3, 4] = some [5, 4, 4, 2, 1] ∧
    List.count 3 [5, 4, 4, 2, 1] = 0 ∧
    List.count 4 [5, 4, 4, 2, 1] = 2 := by
  refine ⟨?_, by decide, by decide⟩
  norm_num [rScores, qcut5, qcutEdges, interpQuantile, strictlyIncreasing,
    qcutBin, List.insertionSort, List.orderedInsert, intToNat_two,
    intToNat_three, intToNat_four]

/-! ## C3 amended: infrastructure on first-occurrence ranks

`rank(method='first')` ranks by the lexicographic strict order
(value, position); the lemmas below show it is a bijection from the `n`
positions onto the ranks `1..n`. -/

theorem rankOf_lt_rankOf {xs : List ℚ} {i j : ℕ} (hi : i < xs.length)
    (hij : xs.getD i 0 < xs.getD j 0 ∨ (xs.getD i 0 = xs.getD j 0 ∧ i < j)) :
    rankOf xs i < rankOf xs j := by
  have hsub : insert i ((Finset.range xs.length).filter (fun a =>
      xs.getD a 0 < xs.getD i 0 ∨ (xs.getD a 0 = xs.getD i 0 ∧ a < i))) ⊆
      (Finset.range xs.length).filter (fun a =>
        xs.getD a 0 < xs.getD j 0 ∨ (xs.getD a 0 = xs.getD j 0 ∧ a < j)) := by
    intro x hx
    rcases Finset.mem_insert.1 hx with h | h
    · subst h
      exact Finset.mem_filter.2 ⟨Finset.mem_range.2 hi, hij⟩
    · obtain ⟨hxr, hcond⟩ := Finset.mem_filter.1 h
      refine Finset.mem_filter.2 ⟨hxr, ?_⟩
      rcases hcond with hlt | ⟨heq, hidx⟩
      · rcases hij with hlt2 | ⟨heq2, -⟩
        · exact Or.inl (lt_trans hlt hlt2)
        · exact Or.inl (by rw [← heq2]; exact hlt)
      · rcases hij with hlt2 | ⟨heq2, hidx2⟩
        · exact Or.inl (by rw [heq]; exact hlt2)
        · exact Or.inr ⟨heq.trans heq2, lt_trans hidx hidx2⟩
  have hnot : i ∉ (Finset.range xs.length).filter (fun a =>
      xs.getD a 0 < xs.getD i 0 ∨ (xs.getD a 0 = xs.getD i 0 ∧ a < i)) := by
    intro hmem
    rcases (Finset.mem_filter.1 hmem).2 with h | ⟨-, h⟩
    · exact lt_irrefl _ h
    · exact lt_irrefl _ h
  have hcard := Finset.card_le_card hsub
  rw [Finset.card_insert_of_not_mem hnot] at hcard
  unfold rankOf
  omega

theorem rankOf_bounds {xs : List ℚ} {i : ℕ} (hi : i < xs.length) :
    1 ≤ rankOf xs i ∧ rankOf xs i ≤ xs.length := by
  constructor
  · unfold rankOf; omega
  · have hsub : (Finset.range xs.length).filter (fun a =>
        xs.getD a 0 < xs.getD i 0 ∨ (xs.getD a 0 = xs.getD i 0 ∧ a < i)) ⊆
        (Finset.range xs.length).erase i := by
      intro x hx
      obtain ⟨hxr, hcond⟩ := Finset.mem_filter.1 hx
      refine Finset.mem_erase.2 ⟨?_, hxr⟩
      intro hxi
      subst hxi
      rcases hcond with h | ⟨-, h⟩
      · exact lt_irrefl _ h
      · exact lt_irrefl _ h
    have hcard := Finset.card_le_card hsub
    rw [Finset.card_erase_of_mem (Finset.mem_range.2 hi), Finset.card_range] at hcard
    unfold rankOf
    omega

theorem rankOf_injOn (xs : List ℚ) :
    ∀ i ∈ Finset.range xs.length, ∀ j ∈ Finset.range xs.length,
      rankOf xs i = rankOf xs j → i = j := by
  intro i hi j hj heq
  by_contra hne
  have hi' := Finset.mem_range.1 hi
  have hj' := Finset.mem_range.1 hj
  have htot : (xs.getD i 0 < xs.getD j 0 ∨ (xs.getD i 0 = xs.getD j 0 ∧ i < j)) ∨
      (xs.getD j 0 < xs.getD i 0 ∨ (xs.getD j 0 = xs.getD i 0 ∧ j < i)) := by
    rcases lt_trichotomy (xs.getD i 0) (xs.getD j 0) with h | h | h
    · exact Or.inl (Or.inl h)
    · rcases (by omega : i < j ∨ j < i) with h2 | h2
      · exact Or.inl (Or.inr ⟨h, h2⟩)
      · exact Or.inr (Or.inr ⟨h.symm, h2⟩)
    · exact Or.inr (Or.inl h)
  rcases htot with h | h
  · exact absurd heq (Nat.ne_of_lt (rankOf_lt_rankOf hi' h))
  · exact absurd heq (Nat.ne_of_gt (rankOf_lt_rankOf hj' h))

theorem rankOf_image (xs : List ℚ) :
    (Finset.range xs.length).image (rankOf xs) = Finset.Icc 1 xs.length := by
  have hinj : Set.InjOn (rankOf xs) (Finset.range xs.length) := by
    intro a ha b hb h
    exact rankOf_injOn xs a (Finset.mem_coe.1 ha) b (Finset.mem_coe.1 hb) h
  apply Finset.eq_of_subset_of_card_le
  · intro v hv
    obtain ⟨i, hi, hvi⟩ := Finset.mem_image.1 hv
    subst hvi
    exact Finset.mem_Icc.2 (rankOf_bounds (Finset.mem_range.1 hi))
  · rw [Nat.card_Icc, Finset.card_image_of_injOn hinj, Finset.card_range]
    omega

theorem rankFirst_length (xs : List ℚ) : (rankFirst xs).length = xs.length := by
  simp [rankFirst]

theorem rankFirst_nodup (xs : List ℚ) : (rankFirst xs).Nodup := by
  refine List.Nodup.map_on ?_ (List.nodup_range xs.length)
  intro i hi j hj h
  exact rankOf_injOn xs i (by simpa using hi) j (by simpa using hj) h

theorem list_toFinset_map (l : List ℕ) (f : ℕ → ℕ) :
    (l.map f).toFinset = l.toFinset.image f := by
  ext b
  simp

theorem range_toFinset (n : ℕ) : (List.range n).toFinset = Finset.range n := by
  ext a
  simp

theorem range'_toFinset (n : ℕ) : (List.range' 1 n).toFinset = Finset.Icc 1 n := by
  ext a
  rw [List.mem_toFinset, List.mem_range', Finset.mem_Icc]
  constructor
  · rintro ⟨i, hi, ha⟩
    omega
  · intro h
    exact ⟨a - 1, by omega, by omega⟩

theorem rankFirst_toFinset (xs : List ℚ) :
    (rankFirst xs).toFinset = Finset.Icc 1 xs.length := by
  rw [rankFirst, list_toFinset_map, range_toFinset, rankOf_image]

theorem rankFirst_perm (xs : List ℚ) :
    List.Perm (rankFirst xs) (List.range' 1 xs.length) := by
  refine List.perm_of_nodup_nodup_toFinset_eq (rankFirst_nodup xs) ?_ ?_
  · exact List.nodup_range' 1 xs.length 1 Nat.one_pos
  · rw [rankFirst_toFinset, range'_toFinset]

theorem rankFirst_mem_bounds (xs : List ℚ) :
    ∀ r ∈ rankFirst xs, 1 ≤ r ∧ r ≤ xs.length := by
  intro r hr
  have hmem : r ∈ (rankFirst xs).toFinset := List.mem_toFinset.2 hr
  rw [rankFirst_toFinset] at hmem
  exact Finset.mem_Icc.1 hmem

theorem sorted_lt_range' (n : ℕ) : List.Sorted (· < ·) (List.range' 1 n) := by
  rw [List.range'_eq_map_range]
  exact List.Pairwise.map _ (fun a b h => by omega) (List.sorted_lt_range n)

theorem insertionSort_rank_cast (xs : List ℚ) :
    List.insertionSort (· ≤ ·) ((rankFirst xs).map (fun (r : ℕ) => (r : ℚ))) =
      (List.range' 1 xs.length).map (fun (k : ℕ) => (k : ℚ)) := by
  haveI : IsAntisymm ℚ (fun a b : ℚ => a ≤ b) := ⟨fun _ _ h1 h2 => le_antisymm h1 h2⟩
  refine List.eq_of_perm_of_sorted (r := (· ≤ ·)) ?_ ?_ ?_
  · exact (List.perm_insertionSort _ _).trans ((rankFirst_perm xs).map _)
  · exact List.sorted_insertionSort _ _
  · exact List.Pairwise.map _ (fun a b h => by exact_mod_cast le_of_lt h)
      (sorted_lt_range' xs.length)

/-! ## C3 amended: quintile edges of a ranked column -/

theorem range'_cast_getD (n idx : ℕ) (d : ℚ) (h : idx < n) :
    ((List.range' 1 n).map (fun (k : ℕ) => (k : ℚ))).getD idx d = 1 + idx := by
  have hlen : idx < ((List.range' 1 n).map (fun (k : ℕ) => (k : ℚ))).length := by
    rw [List.length_map, List.length_range']
    exact h
  rw [List.getD_eq_getElem _ _ hlen, List.getElem_map, List.getElem_range'_1]
  push_cast
  ring

theorem range'_cast_getD_default (n idx : ℕ) (d : ℚ) (h : n ≤ idx) :
    ((List.range' 1 n).map (fun (k : ℕ) => (k : ℚ))).getD idx d = d := by
  apply List.getD_eq_default
  rw [List.length_map, List.length_range']
  exact h

/-- Value of the interpolated quantile of the rank column `1..n` at
`q = j/5`: exactly `1 + j(n-1)/5`. -/
theorem interpQuantile_range (n j : ℕ) (q : ℚ) (hn : 1 ≤ n) (hj : j ≤ 5)
    (hq : q = (j : ℚ) / 5) :
    interpQuantile ((List.range' 1 n).map (fun (k : ℕ) => (k : ℚ))) q =
      1 + ((j * (n - 1) : ℕ) : ℚ) / 5 := by
  subst hq
  have hlen : ((List.range' 1 n).map (fun (k : ℕ) => (k : ℚ))).length = n := by
    rw [List.length_map, List.length_range']
  have hcast : ((n : ℚ) - 1) = ((n - 1 : ℕ) : ℚ) := by
    rw [Nat.cast_sub hn, Nat.cast_one]
  have hh : (j : ℚ) / 5 * ((n : ℚ) - 1) = ((j * (n - 1) : ℕ) : ℚ) / 5 := by
    rw [hcast]
    push_cast
    ring
  have hfloor : (⌊((j * (n - 1) : ℕ) : ℚ) / 5⌋).toNat = (j * (n - 1)) / 5 := by
    rw [Int.floor_toNat, show (5 : ℚ) = ((5 : ℕ) : ℚ) from by norm_cast,
      Nat.floor_div_nat (α := ℚ) ((j * (n - 1) : ℕ) : ℚ) 5, Nat.floor_natCast]
  have hKle : (j * (n - 1)) / 5 ≤ n - 1 := by
    have h1 : j * (n - 1) ≤ 5 * (n - 1) := Nat.mul_le_mul_right (n - 1) hj
    have h2 := Nat.div_le_div_right (c := 5) h1
    rwa [Nat.mul_div_cancel_left (n - 1) (by norm_num : 0 < 5)] at h2
  simp only [interpQuantile]
  rw [hlen, hh, hfloor]
  rcases Nat.lt_or_ge ((j * (n - 1)) / 5) (n - 1) with hlt | hge
  · rw [range'_cast_getD n _ 0 (by omega)]
    rw [range'_cast_getD n _ _ (by omega)]
    push_cast
    ring
  · have heq : (j * (n - 1)) / 5 = n - 1 := le_antisymm hKle hge
    have hK : j * (n - 1) = 5 * (n - 1) := by
      have h1 : j * (n - 1) ≤ 5 * (n - 1) := Nat.mul_le_mul_right (n - 1) hj
      omega
    rw [heq, range'_cast_getD n _ 0 (by omega),
      range'_cast_getD_default n _ _ (by omega), hK]
    push_cast
    ring

/-- The six quintile bin edges of the rank column `1..n`, with `m = n-1`. -/
def rankEdges (m : ℕ) : List ℚ :=
  [1, 1 + (m : ℚ) / 5, 1 + 2 * (m : ℚ) / 5, 1 + 3 * (m : ℚ) / 5,
    1 + 4 * (m : ℚ) / 5, 1 + (m : ℚ)]

theorem qcutEdges_ranked (xs : List ℚ) (hn : 1 ≤ xs.length) :
    qcutEdges ((rankFirst xs).map (fun (r : ℕ) => (r : ℚ))) =
      rankEdges (xs.length - 1) := by
  have h0 := interpQuantile_range xs.length 0 0 hn (by norm_num) (by norm_num)
  have h1 := interpQuantile_range xs.length 1 (1/5) hn (by norm_num) (by norm_num)
  have h2 := interpQuantile_range xs.length 2 (2/5) hn (by norm_num) (by norm_num)
  have h3 := interpQuantile_range xs.length 3 (3/5) hn (by norm_num) (by norm_num)
  have h4 := interpQuantile_range xs.length 4 (4/5) hn (by norm_num) (by norm_num)
  have h5 := interpQuantile_range xs.length 5 1 hn (by norm_num) (by norm_num)
  unfold qcutEdges
  rw [insertionSort_rank_cast xs]
  simp only [List.map_cons, List.map_nil, h0, h1, h2, h3, h4, h5, rankEdges]
  refine List.ext_getElem (by simp) ?_
  intro i hi1 hi2
  have hchoice : i = 0 ∨ i = 1 ∨ i = 2 ∨ i = 3 ∨ i = 4 ∨ i = 5 := by
    simp at hi1
    omega
  rcases hchoice with h | h | h | h | h | h <;> subst h <;>
    simp only [List.getElem_cons_zero, List.getElem_cons_succ] <;> push_cast <;>
    ring

theorem strictlyIncreasing_rankEdges (m : ℕ) (hm : 4 ≤ m) :
    strictlyIncreasing (rankEdges m) = true := by
  have hmq : (4 : ℚ) ≤ (m : ℚ) := by exact_mod_cast hm
  simp only [rankEdges, strictlyIncreasing, Bool.and_eq_true, decide_eq_true_eq]
  refine ⟨by linarith, by linarith, by linarith, by linarith, by linarith, trivial⟩

/-- The quintile score of the customer of rank `r` among `n = m + 1`
customers, extracted from the bin inequalities. -/
def fscoreRank (m r : ℕ) : ℕ :=
  if (r - 1) * 5 ≤ m then 1
  else if (r - 1) * 5 ≤ 2 * m then 2
  else if (r - 1) * 5 ≤ 3 * m then 3
  else if (r - 1) * 5 ≤ 4 * m then 4
  else 5

theorem fscoreRank_bounds (m r : ℕ) : 1 ≤ fscoreRank m r ∧ fscoreRank m r ≤ 5 := by
  unfold fscoreRank
  split_ifs <;> omega

theorem qcutBin_rankEdges (m r : ℕ) (hr : 1 ≤ r) :
    qcutBin (rankEdges m) (r : ℚ) = fscoreRank m r := by
  have hsub : ((r : ℚ) - 1) = ((r - 1 : ℕ) : ℚ) := by
    rw [Nat.cast_sub hr, Nat.cast_one]
  have c1 : ((r : ℚ) ≤ 1 + (m : ℚ) / 5) ↔ ((r - 1) * 5 ≤ m) := by
    rw [← sub_le_iff_le_add', le_div_iff₀ (by norm_num : (0 : ℚ) < 5), hsub]
    norm_cast
  have c2 : ((r : ℚ) ≤ 1 + 2 * (m : ℚ) / 5) ↔ ((r - 1) * 5 ≤ 2 * m) := by
    rw [← sub_le_iff_le_add', le_div_iff₀ (by norm_num : (0 : ℚ) < 5), hsub]
    norm_cast
  have c3 : ((r : ℚ) ≤ 1 + 3 * (m : ℚ) / 5) ↔ ((r - 1) * 5 ≤ 3 * m) := by
    rw [← sub_le_iff_le_add', le_div_iff₀ (by norm_num : (0 : ℚ) < 5), hsub]
    norm_cast
  have c4 : ((r : ℚ) ≤ 1 + 4 * (m : ℚ) / 5) ↔ ((r - 1) * 5 ≤ 4 * m) := by
    rw [← sub_le_iff_le_add', le_div_iff₀ (by norm_num : (0 : ℚ) < 5), hsub]
    norm_cast
  simp only [qcutBin, rankEdges, List.getD_cons_zero, List.getD_cons_succ]
  simp only [c1, c2, c3, c4, fscoreRank]

theorem labels_getD_fm (b : ℕ) (hb1 : 1 ≤ b) (hb5 : b ≤ 5) :
    ([1, 2, 3, 4, 5] : List ℕ).getD (b - 1) 0 = b := by
  interval_cases b <;> rfl

theorem fScores_eq_map_fscoreRank (xs : List ℚ) (h5 : 5 ≤ xs.length) :
    fScores xs = some ((rankFirst xs).map (fscoreRank (xs.length - 1))) := by
  have hn : 1 ≤ xs.length := by omega
  have hm : 4 ≤ xs.length - 1 := by omega
  simp only [fScores, qcut5]
  rw [qcutEdges_ranked xs hn, strictlyIncreasing_rankEdges _ hm]
  simp only [eq_self_iff_true, if_true, List.map_map, Option.some.injEq]
  refine List.map_congr_left ?_
  intro r hr
  obtain ⟨hr1, hrn⟩ := rankFirst_mem_bounds xs r hr
  simp only [Function.comp]
  rw [qcutBin_rankEdges _ r hr1]
  exact labels_getD_fm _ (fscoreRank_bounds _ r).1 (fscoreRank_bounds _ r).2

/-! ## C3 amended: bin counts -/

/-- Closed form of the number of customers in bin `s` out of 5 when
there are `m + 1` customers. -/
def binCount (m s : ℕ) : ℕ :=
  match s with
  | 1 => m / 5 + 1
  | 2 => 2 * m / 5 - m / 5
  | 3 => 3 * m / 5 - 2 * m / 5
  | 4 => 4 * m / 5 - 3 * m / 5
  | _ => m - 4 * m / 5

theorem card_Icc_fscore (m s : ℕ) (hm : 4 ≤ m) (hs1 : 1 ≤ s) (hs5 : s ≤ 5) :
    ((Finset.Icc 1 (m + 1)).filter (fun r => fscoreRank m r = s)).card =
      binCount m s := by
  interval_cases s
  · have hset : (Finset.Icc 1 (m + 1)).filter (fun r => fscoreRank m r = 1) =
        Finset.Icc 1 (m / 5 + 1) := by
      ext r
      simp only [Finset.mem_filter, Finset.mem_Icc, fscoreRank]
      split_ifs <;> omega
    rw [hset, Nat.card_Icc]
    simp only [binCount]
    omega
  · have hset : (Finset.Icc 1 (m + 1)).filter (fun r => fscoreRank m r = 2) =
        Finset.Icc (m / 5 + 2) (2 * m / 5 + 1) := by
      ext r
      simp only [Finset.mem_filter, Finset.mem_Icc, fscoreRank]
      split_ifs <;> omega
    rw [hset, Nat.card_Icc]
    simp only [binCount]
    omega
  · have hset : (Finset.Icc 1 (m + 1)).filter (fun r => fscoreRank m r = 3) =
        Finset.Icc (2 * m / 5 + 2) (3 * m / 5 + 1) := by
      ext r
      simp only [Finset.mem_filter, Finset.mem_Icc, fscoreRank]
      split_ifs <;> omega
    rw [hset, Nat.card_Icc]
    simp only [binCount]
    omega
  · have hset : (Finset.Icc 1 (m + 1)).filter (fun r => fscoreRank m r = 4) =
        Finset.Icc (3 * m / 5 + 2) (4 * m / 5 + 1) := by
      ext r
      simp only [Finset.mem_filter, Finset.mem_Icc, fscoreRank]
      split_ifs <;> omega
    rw [hset, Nat.card_Icc]
    simp only [binCount]
    omega
  · have hset : (Finset.Icc 1 (m + 1)).filter (fun r => fscoreRank m r = 5) =
        Finset.Icc (4 * m / 5 + 2) (m + 1) := by
      ext r
      simp only [Finset.mem_filter, Finset.mem_Icc, fscoreRank]
      split_ifs <;> omega
    rw [hset, Nat.card_Icc]
    simp only [binCount]
    omega

theorem binCount_pos (m s : ℕ) (hm : 4 ≤ m) (hs1 : 1 ≤ s) (hs5 : s ≤ 5) :
    1 ≤ binCount m s := by
  obtain ⟨q, k, rfl, hk⟩ : ∃ q k, m = 5 * q + k ∧ k < 5 :=
    ⟨m / 5, m % 5, by omega, by omega⟩
  have h1 : (5 * q + k) / 5 = q + k / 5 := by
    rw [Nat.add_comm (5 * q) k, Nat.add_mul_div_left _ _ (by norm_num : 0 < 5),
      Nat.add_comm]
  have h2 : 2 * (5 * q + k) / 5 = 2 * q + 2 * k / 5 := by
    rw [show 2 * (5 * q + k) = 2 * k + 5 * (2 * q) from by ring,
      Nat.add_mul_div_left _ _ (by norm_num : 0 < 5), Nat.add_comm]
  have h3 : 3 * (5 * q + k) / 5 = 3 * q + 3 * k / 5 := by
    rw [show 3 * (5 * q + k) = 3 * k + 5 * (3 * q) from by ring,
      Nat.add_mul_div_left _ _ (by norm_num : 0 < 5), Nat.add_comm]
  have h4 : 4 * (5 * q + k) / 5 = 4 * q + 4 * k / 5 := by
    rw [show 4 * (5 * q + k) = 4 * k + 5 * (4 * q) from by ring,
      Nat.add_mul_div_left _ _ (by norm_num : 0 < 5), Nat.add_comm]
  interval_cases s <;> interval_cases k <;> simp only [binCount] <;> omega

theorem binCount_balanced (m s t : ℕ) (hm : 4 ≤ m) (hs1 : 1 ≤ s) (hs5 : s ≤ 5)
    (ht1 : 1 ≤ t) (ht5 : t ≤ 5) : binCount m s ≤ binCount m t + 1 := by
  interval_cases s <;> interval_cases t <;> simp only [binCount] <;> omega

theorem count_fscores (xs : List ℚ) (s : ℕ) :
    ((rankFirst xs).map (fscoreRank (xs.length - 1))).count s =
      ((Finset.Icc 1 xs.length).filter
        (fun r => fscoreRank (xs.length - 1) r = s)).card := by
  rw [List.count, List.countP_map, List.countP_eq_length_filter]
  have hnodup : ((rankFirst xs).filter
      ((fun x => x == s) ∘ fscoreRank (xs.length - 1))).Nodup :=
    (rankFirst_nodup xs).filter _
  rw [← List.toFinset_card_of_nodup hnodup, List.toFinset_filter,
    rankFirst_toFinset]
  refine congrArg Finset.card (Finset.filter_congr ?_)
  intro r hr
  simp [Function.comp]

/-- C3 amended.  For every column with at least 5 entries (customers),
the rank-then-qcut scoring used for Frequency and Monetary
(`pd.qcut(col.rank(method='first'), 5, labels=[1,2,3,4,5])`) succeeds
and partitions the customers into exactly 5 bins: every score is between
1 and 5, every score is assigned to at least one customer, and any two
scores are assigned to numbers of customers differing by at most 1
(balanced ±1).  The Recency metric, in contrast, is binned on raw values
without rank tie-breaking, and need not be balanced (see the
counterexample). -/
theorem rank_quintiles_balanced (xs : List ℚ) (h5 : 5 ≤ xs.length) :
    ∃ scores, fScores xs = some scores ∧ scores.length = xs.length ∧
      (∀ v ∈ scores, 1 ≤ v ∧ v ≤ 5) ∧
      (∀ s, 1 ≤ s → s ≤ 5 → 1 ≤ scores.count s) ∧
      (∀ s t, 1 ≤ s → s ≤ 5 → 1 ≤ t → t ≤ 5 →
        scores.count s ≤ scores.count t + 1) := by
  have hm : 4 ≤ xs.length - 1 := by omega
  have hn1 : xs.length - 1 + 1 = xs.length := by omega
  refine ⟨(rankFirst xs).map (fscoreRank (xs.length - 1)),
    fScores_eq_map_fscoreRank xs h5, ?_, ?_, ?_, ?_⟩
  · rw [List.length_map, rankFirst_length]
  · intro v hv
    obtain ⟨r, hr, hvr⟩ := List.mem_map.1 hv
    rw [← hvr]
    exact fscoreRank_bounds _ r
  · intro s hs1 hs5
    have hc := card_Icc_fscore (xs.length - 1) s hm hs1 hs5
    rw [hn1] at hc
    rw [count_fscores xs s, hc]
    exact binCount_pos _ s hm hs1 hs5
  · intro s t hs1 hs5 ht1 ht5
    have hcs := card_Icc_fscore (xs.length - 1) s hm hs1 hs5
    have hct := card_Icc_fscore (xs.length - 1) t hm ht1 ht5
    rw [hn1] at hcs hct
    rw [count_fscores xs s, count_fscores xs t, hcs, hct]
    exact binCount_balanced _ s t hm hs1 hs5 ht1 ht5

/-- Witness for C3 amended: the column [10, 20, 20, 30, 40] (with a tie)
has 5 entries, so the rank-based scoring succeeds and is balanced. -/
theorem rank_quintiles_balanced_witness :
    5 ≤ ([10, 20, 20, 30, 40] : List ℚ).length ∧
    (∃ scores, fScores [10, 20, 20, 30, 40] = some scores ∧
      scores.length = ([10, 20, 20, 30, 40] : List ℚ).length ∧
      (∀ v ∈ scores, 1 ≤ v ∧ v ≤ 5) ∧
      (∀ s, 1 ≤ s → s ≤ 5 → 1 ≤ scores.count s) ∧
      (∀ s t, 1 ≤ s → s ≤ 5 → 1 ≤ t → t ≤ 5 →
        scores.count s ≤ scores.count t + 1)) :=
  ⟨by norm_num, rank_quintiles_balanced [10, 20, 20, 30, 40] (by norm_num)⟩
